import Mathlib

/-!
Verification of the chapter text-to-JSON converter (src/scripts/convert-chapters.py).

Strings are embedded as `List Char` (one element per Unicode code point, matching
the indexing, slicing and length semantics of Python `str`).  The two pure
functions `parse_chapter_title` and `parse_txt_file`, and the driver loop of
`main`, are translated below; builtins they call (`str.strip`, `str.split`,
`int`, `sorted`, `json.dump`, string formatting) are modelled explicitly.
-/

namespace RedConv

/-- Whitespace as Python `str.strip` and `\s` (for `str` patterns) treat it:
code points with the Unicode whitespace bidirectional properties
(0x09-0x0D, 0x1C-0x1F, 0x20, 0x85, 0xA0, 0x1680, 0x2000-0x200A, 0x2028,
0x2029, 0x202F, 0x205F, 0x3000). -/
def isPySpace (c : Char) : Bool :=
  let n := c.toNat
  (9 ≤ n && n ≤ 13) || (28 ≤ n && n ≤ 31) || n == 32 || n == 133 || n == 160 ||
  n == 0x1680 || (0x2000 ≤ n && n ≤ 0x200a) || n == 0x2028 || n == 0x2029 ||
  n == 0x202f || n == 0x205f || n == 0x3000

/-- Python `str.strip()`: remove leading and trailing whitespace. -/
def pstrip (l : List Char) : List Char :=
  ((l.dropWhile isPySpace).reverse.dropWhile isPySpace).reverse

/-- The character class `[一二三四五六七八九十百零]` of the title pattern in
`parse_chapter_title` (line 39 of convert-chapters.py). -/
def isGlyph (c : Char) : Bool :=
  c == '一' || c == '二' || c == '三' || c == '四' || c == '五' || c == '六' ||
  c == '七' || c == '八' || c == '九' || c == '十' || c == '百' || c == '零'

/-- The `chinese_nums` dict of `parse_chapter_title` (lines 29-36), as a
lookup function on exact keys. -/
def chineseNums : List Char → Option Nat
  | ['一'] => some 1
  | ['二'] => some 2
  | ['三'] => some 3
  | ['四'] => some 4
  | ['五'] => some 5
  | ['六'] => some 6
  | ['七'] => some 7
  | ['八'] => some 8
  | ['九'] => some 9
  | ['十'] => some 10
  | ['十', '一'] => some 11
  | ['十', '二'] => some 12
  | ['十', '三'] => some 13
  | ['十', '四'] => some 14
  | ['十', '五'] => some 15
  | ['十', '六'] => some 16
  | ['十', '七'] => some 17
  | ['十', '八'] => some 18
  | ['十', '九'] => some 19
  | ['二', '十'] => some 20
  | ['二', '十', '一'] => some 21
  | ['二', '十', '二'] => some 22
  | ['二', '十', '三'] => some 23
  | ['二', '十', '四'] => some 24
  | ['二', '十', '五'] => some 25
  | ['百'] => some 100
  | ['零'] => some 0
  | _ => none

/-- The numeral-to-integer conversion of `parse_chapter_title`
(lines 45-62): exact table lookup, then the `startswith` special cases for
the twenty and ten glyphs (`chinese_num[2:]` and `chinese_num[1:]` with
`.get(_, 0)` fallback), then the per-glyph summing fallback in which
unknown glyphs contribute 0. -/
def parseChineseNum (s : List Char) : Nat :=
  match chineseNums s with
  | some v => v
  | none =>
    if s.take 2 = ['二', '十'] then
      if s.length = 2 then 20 else 20 + (chineseNums (s.drop 2)).getD 0
    else if s.take 1 = ['十'] then
      if s.length = 1 then 10 else 10 + (chineseNums (s.drop 1)).getD 0
    else (s.map (fun c => (chineseNums [c]).getD 0)).sum

/-- The Numeral Parser exactly as the specification words it: first an
exact-match lookup in the fixed table (0-25 plus the bare hundred and zero
glyphs); failing that, a string starting with the twenty glyph pair gives 20
when of length 2 and otherwise 20 plus the table value of the remainder
(0 when absent); a string starting with the ten glyph gives 10 when of
length 1 and otherwise 10 plus the table value of the remainder (0 when
absent); otherwise the sum of the table values of the individual glyphs,
unknown glyphs contributing 0. -/
def specNumeral (s : List Char) : Nat :=
  match chineseNums s with
  | some v => v
  | none =>
    if s.take 2 = ['二', '十'] then
      if s.length = 2 then 20 else 20 + (chineseNums (s.drop 2)).getD 0
    else if s.take 1 = ['十'] then
      if s.length = 1 then 10 else 10 + (chineseNums (s.drop 1)).getD 0
    else (s.map (fun c => (chineseNums [c]).getD 0)).sum

/-- The regex step of `parse_chapter_title` (line 39):
`re.match(r'第([一二三四五六七八九十百零]+)回\s*(.+)', s)` applied to an
already stripped line `s`, returning `some (group1, group2)` on a match.
Because the glyph class excludes the 回 character, the greedy group 1 is
exactly the maximal glyph run after 第 and no backtracking into it can
succeed.  Because `s` is stripped it does not end in whitespace, so after
回 either nothing remains (no match: `(.+)` needs a character) or the text
after the maximal `\s*` run is nonempty and group 2 is its maximal
newline-free prefix, with no backtracking of `\s*`. -/
def titleMatch (s : List Char) : Option (List Char × List Char) :=
  if s.take 1 = ['第'] then
    if (s.drop 1).takeWhile isGlyph = [] then none
    else if ((s.drop 1).dropWhile isGlyph).take 1 = ['回'] then
      if (((s.drop 1).dropWhile isGlyph).drop 1).dropWhile isPySpace = [] then none
      else
        some ((s.drop 1).takeWhile isGlyph,
          ((((s.drop 1).dropWhile isGlyph).drop 1).dropWhile isPySpace).takeWhile
            (fun c => c != '\n'))
    else none
  else none

/-- `parse_chapter_title` (lines 21-66): strip the line, try the title
pattern; on a match return the parsed numeral and the stripped group 2,
otherwise `(0, stripped line)`. -/
def parse_chapter_title (first_line : List Char) : Nat × List Char :=
  let s := pstrip first_line
  match titleMatch s with
  | some (num, g2) => (parseChineseNum num, pstrip g2)
  | none => (0, s)

/-- ASCII decimal digit test. -/
def isAsciiDigit (c : Char) : Bool := 48 ≤ c.toNat && c.toNat ≤ 57

/-- Value of an ASCII decimal digit. -/
def digitVal (c : Char) : Nat := c.toNat - 48

/-- Continuation of a digit group for `int()`: digits with single
underscores allowed between digits.  `afterUnd` records that the previous
character was an underscore (which must be followed by a digit). -/
def digitsTail (acc : Nat) (afterUnd : Bool) : List Char → Option Nat
  | [] => if afterUnd then none else some acc
  | c :: cs =>
    if isAsciiDigit c then digitsTail (10 * acc + digitVal c) false cs
    else if c == '_' then
      if afterUnd then none else digitsTail acc true cs
    else none

/-- A nonempty digit group (digits, optionally grouped by single
underscores) as accepted by Python `int()`. -/
def digitsGroupVal : List Char → Option Nat
  | [] => none
  | c :: cs => if isAsciiDigit c then digitsTail (digitVal c) false cs else none

/-- Python `int(s)` on a string (line 95: `int(file_path.stem)`), restricted
to ASCII digits: surrounding whitespace is stripped, an optional single
`+`/`-` sign precedes a nonempty underscore-grouped digit sequence; `none`
models the `ValueError` raised otherwise.  (Non-ASCII Unicode digits, which
`int()` also accepts, are outside this model.) -/
def pyInt (s : List Char) : Option Int :=
  match pstrip s with
  | '+' :: u => (digitsGroupVal u).map (fun n => (n : Int))
  | '-' :: u => (digitsGroupVal u).map (fun n => -(n : Int))
  | u => (digitsGroupVal u).map (fun n => (n : Int))

/-- Python `content.split('\n')` on a `List Char` string: the result is
never empty, and splitting the empty string gives one empty piece. -/
def splitNl : List Char → List (List Char)
  | [] => [[]]
  | c :: cs =>
    if c = '\n' then [] :: splitNl cs
    else
      match splitNl cs with
      | r :: rs => (c :: r) :: rs
      | [] => [[c]]

/-- One paragraph of the output record: `{"content": [...]}` (the code
always stores exactly one string in `content`). -/
structure Paragraph where
  content : List (List Char)
deriving DecidableEq

/-- One chapter record as built at lines 116-121 of convert-chapters.py. -/
structure Chapter where
  id : Int
  title : List Char
  titleText : List Char
  paragraphs : List Paragraph
deriving DecidableEq

/-- The paragraph loop of `parse_txt_file` (lines 98-114): accumulate
stripped non-blank lines in a buffer; a blank line with a nonempty buffer
emits the separator-free concatenation as one paragraph; a nonempty buffer
left at end of input is emitted the same way. -/
def segLoop (buf : List (List Char)) : List (List Char) → List Paragraph
  | [] => if buf = [] then [] else [⟨[buf.flatten]⟩]
  | l :: ls =>
    let s := pstrip l
    if s = [] then
      if buf = [] then segLoop [] ls
      else ⟨[buf.flatten]⟩ :: segLoop [] ls
    else segLoop (buf ++ [s]) ls

/-- `segLoop` on lines that are already stripped (helper for proofs). -/
def segLoopS (buf : List (List Char)) : List (List Char) → List Paragraph
  | [] => if buf = [] then [] else [⟨[buf.flatten]⟩]
  | s :: ls =>
    if s = [] then
      if buf = [] then segLoopS [] ls
      else ⟨[buf.flatten]⟩ :: segLoopS [] ls
    else segLoopS (buf ++ [s]) ls

/-- The body of `parse_txt_file` (lines 86-121) after the file content has
been split into lines: the stripped first line is the title, the id falls
back to `int(stem)` when the parsed numeral is 0 (`none` models the
per-file `ValueError`), and the remaining lines are segmented into
paragraphs. -/
def parseLines (stem : List Char) (lines : List (List Char)) : Option Chapter :=
  (if (parse_chapter_title (pstrip (lines.headD []))).1 = 0 then pyInt stem
   else some ((parse_chapter_title (pstrip (lines.headD []))).1 : Int)).map
    (fun i => ⟨i, pstrip (lines.headD []),
      (parse_chapter_title (pstrip (lines.headD []))).2, segLoop [] lines.tail⟩)

/-- `parse_txt_file` (lines 68-121) on a file with base name `stem` and
raw text `content`: `lines = content.strip().split('\n')`, then
`parseLines`. -/
def parse_txt_file (stem content : List Char) : Option Chapter :=
  parseLines stem (splitNl (pstrip content))

/-- The stripped first line of a file content, as `parse_txt_file`
computes it. -/
def firstLineOf (content : List Char) : List Char :=
  pstrip ((splitNl (pstrip content)).headD [])

/-- The candidate chapter number decoded from the title line of a file
content (before the filename fallback of line 95). -/
def candOf (content : List Char) : Nat :=
  (parse_chapter_title (firstLineOf content)).1

/-- An input file of the driver: (base name without extension, raw text). -/
abbrev TxtFile := List Char × List Char

/-- Python `str.isdigit` restricted to ASCII: nonempty and all decimal
digits (line 129). -/
def pyIsDigit (s : List Char) : Bool := !s.isEmpty && s.all isAsciiDigit

/-- Decimal value of a digit string. -/
def digitsVal (s : List Char) : Nat := s.foldl (fun a c => 10 * a + digitVal c) 0

/-- The sort key of line 129: `int(p.stem) if p.stem.isdigit() else 0`. -/
def sortKey (stem : List Char) : Nat :=
  if pyIsDigit stem then digitsVal stem else 0

/-- Insert an element into an already sorted list, after every element
whose key is less than or equal (so insertion keeps the original relative
order of equal keys). -/
def insertSorted (le : α → α → Bool) (a : α) : List α → List α
  | [] => [a]
  | b :: bs => if le b a then b :: insertSorted le a bs else a :: b :: bs

/-- Stable sort by repeated insertion, extensionally equal to the stable
`sorted` builtin of Python for a total preorder. -/
def stableSort (le : α → α → Bool) (l : List α) : List α :=
  l.foldl (fun acc x => insertSorted le x acc) []

/-- Key comparison used by the driver to order the input files. -/
def fileLe (a b : TxtFile) : Bool := sortKey a.1 ≤ sortKey b.1

/-- The sorted file list of line 129. -/
def sortFiles (files : List TxtFile) : List TxtFile := stableSort fileLe files

/-- JSON escaping of one character as `json.dump` with `ensure_ascii=False`
performs it: quote, backslash and the control characters below 0x20 are
escaped, every other character is emitted literally. -/
def jsonEscChar (c : Char) : List Char :=
  if c = '"' then ['\\', '"']
  else if c = '\\' then ['\\', '\\']
  else if c = '\n' then ['\\', 'n']
  else if c = '\t' then ['\\', 't']
  else if c = '\r' then ['\\', 'r']
  else if c.toNat = 8 then ['\\', 'b']
  else if c.toNat = 12 then ['\\', 'f']
  else if c.toNat < 32 then
    ['\\', 'u', '0', '0',
     (Nat.digitChar (c.toNat / 16)), (Nat.digitChar (c.toNat % 16))]
  else [c]

/-- A JSON string literal. -/
def jsonStr (s : List Char) : List Char :=
  '"' :: (s.map jsonEscChar).flatten ++ ['"']

/-- Concatenate pieces with a separator between consecutive pieces. -/
def joinSep (sep : List Char) : List (List Char) → List Char
  | [] => []
  | [x] => x
  | x :: xs => x ++ sep ++ joinSep sep xs

/-- Serialization of one paragraph object at indentation depth 2 of
`json.dump(..., ensure_ascii=False, indent=2)`. -/
def paraJson (p : Paragraph) : List Char :=
  if p.content = [] then "\x7b\n      \"content\": []\n    \x7d".data
  else
    "\x7b\n      \"content\": [\n        ".data ++
    joinSep ",\n        ".data (p.content.map jsonStr) ++
    "\n      ]\n    \x7d".data

/-- Serialization of the paragraph array. -/
def parasJson (ps : List Paragraph) : List Char :=
  if ps = [] then "[]".data
  else "[\n    ".data ++ joinSep ",\n    ".data (ps.map paraJson) ++ "\n  ]".data

/-- `Int.repr` as a character list. -/
def intStr (i : Int) : List Char := (Int.repr i).data

/-- The bytes `json.dump(chapter_data, f, ensure_ascii=False, indent=2)`
writes for one chapter record (line 149). -/
def serializeRecord (r : Chapter) : List Char :=
  "\x7b\n  \"id\": ".data ++ intStr r.id ++
  ",\n  \"title\": ".data ++ jsonStr r.title ++
  ",\n  \"titleText\": ".data ++ jsonStr r.titleText ++
  ",\n  \"paragraphs\": ".data ++ parasJson r.paragraphs ++
  "\n\x7d".data

/-- Python `f"chapter-{num:03d}.json"` (line 146): the decimal rendering of
the id zero-padded to a minimum width of 3, the sign counting toward the
width and the zeros following it. -/
def outName (i : Int) : List Char :=
  let digits := (Nat.repr i.natAbs).data
  let sign : List Char := if i < 0 then ['-'] else []
  "chapter-".data ++ sign ++
  List.replicate (3 - (sign.length + digits.length)) '0' ++ digits ++
  ".json".data

/-- One iteration of the driver loop (lines 138-154): a successful parse
produces the output file name and bytes; a failed parse produces the
logged per-file error (carrying the file base name; the message text of
the `ValueError` is not modelled). -/
def processOne (f : TxtFile) : Except (List Char) (List Char × List Char) :=
  match parse_txt_file f.1 f.2 with
  | some r => Except.ok (outName r.id, serializeRecord r)
  | none => Except.error f.1

/-- The per-file outcomes of the driver loop over an already sorted file
list: one entry per file, in order. -/
def loopEntries (l : List TxtFile) : List (Except (List Char) (List Char × List Char)) :=
  l.map processOne

/-- The writes the driver loop performs over an already sorted file list
(errors produce no write). -/
def loopWrites (l : List TxtFile) : List (List Char × List Char) :=
  (loopEntries l).filterMap Except.toOption

/-- All chapter records one run of `main` produces from a corpus. -/
def convertRecords (files : List TxtFile) : List Chapter :=
  (sortFiles files).filterMap (fun f => parse_txt_file f.1 f.2)

/-- All (file name, bytes) writes one run of `main` performs on a corpus. -/
def convWrites (files : List TxtFile) : List (List Char × List Char) :=
  loopWrites (sortFiles files)

/-- Apply a list of writes to an output directory state (a partial map
from file name to bytes); a later write to the same name overwrites an
earlier one, as the driver overwrites existing files. -/
def writeAll (ws : List (List Char × List Char))
    (st : List Char → Option (List Char)) : List Char → Option (List Char) :=
  ws.foldl (fun acc w => fun n => if n = w.1 then some w.2 else acc n) st

/-- Maximal runs of consecutive non-blank lines, written from the words of
the specification: a blank line starts no run, and a non-blank line starts
the run of itself plus all immediately following non-blank lines, with the
rest of the input resuming after that run. -/
def nonBlankRuns : List (List Char) → List (List (List Char))
  | [] => []
  | l :: ls =>
    if l = [] then nonBlankRuns ls
    else (l :: ls.takeWhile (fun x => !x.isEmpty)) ::
      nonBlankRuns (ls.dropWhile (fun x => !x.isEmpty))
termination_by ls => ls.length
decreasing_by
  · simp only [List.length_cons]; exact Nat.lt_succ_of_le (Nat.le_refl _)
  · simp only [List.length_cons]
    exact Nat.lt_succ_of_le ((List.dropWhile_suffix _).sublist.length_le)

/-- Paragraph segmentation as the specification words it: strip every
line, group the stripped lines into maximal runs of consecutive non-blank
lines, and emit each run as one Paragraph holding the separator-free
concatenation of its lines. -/
def specSegment (ls : List (List Char)) : List Paragraph :=
  (nonBlankRuns (ls.map pstrip)).map (fun run => ⟨[run.flatten]⟩)

/-! Helper lemmas about `takeWhile`, `dropWhile` and `pstrip`. -/

theorem takeWhile_append_all {p : α → Bool} :
    ∀ {l₁ l₂ : List α}, (∀ a ∈ l₁, p a = true) →
      (l₁ ++ l₂).takeWhile p = l₁ ++ l₂.takeWhile p := by
  intro l₁ l₂ h
  induction l₁ with
  | nil => simp
  | cons a t ih =>
    have ha : p a = true := h a (List.mem_cons_self a t)
    simp only [List.cons_append, List.takeWhile_cons, ha, if_true]
    rw [ih (fun b hb => h b (List.mem_cons_of_mem a hb))]

theorem dropWhile_append_all {p : α → Bool} :
    ∀ {l₁ l₂ : List α}, (∀ a ∈ l₁, p a = true) →
      (l₁ ++ l₂).dropWhile p = l₂.dropWhile p := by
  intro l₁ l₂ h
  induction l₁ with
  | nil => simp
  | cons a t ih =>
    have ha : p a = true := h a (List.mem_cons_self a t)
    simp only [List.cons_append, List.dropWhile_cons, ha, if_true]
    exact ih (fun b hb => h b (List.mem_cons_of_mem a hb))

theorem takeWhile_all {p : α → Bool} {l : List α} (h : ∀ a ∈ l, p a = true) :
    l.takeWhile p = l :=
  List.takeWhile_eq_self_iff.mpr h

theorem dropWhile_all {p : α → Bool} {l : List α} (h : ∀ a ∈ l, p a = true) :
    l.dropWhile p = [] := by
  induction l with
  | nil => rfl
  | cons a t ih =>
    simp only [List.dropWhile_cons, h a (List.mem_cons_self a t), if_true]
    exact ih (fun b hb => h b (List.mem_cons_of_mem a hb))

theorem dropWhile_length_le (p : α → Bool) :
    ∀ l : List α, (l.dropWhile p).length ≤ l.length := by
  intro l
  induction l with
  | nil => simp
  | cons a t ih =>
    by_cases h : p a
    · simp only [List.dropWhile_cons, h, if_true]
      exact Nat.le_succ_of_le ih
    · simp [List.dropWhile_cons, h]

theorem head_false_of_dropWhile_eq {p : α → Bool} {l : List α} {c : α} {t : List α}
    (h : l.dropWhile p = c :: t) : p c = false := by
  induction l with
  | nil => simp at h
  | cons a s ih =>
    by_cases ha : p a
    · exact ih (by simpa [List.dropWhile_cons, ha] using h)
    · rw [List.dropWhile_cons, if_neg (by simpa using ha)] at h
      cases h
      simpa using ha

theorem dropWhile_eq_self_of_cons {p : α → Bool} {c : α} {t : List α}
    (h : p c = false) : (c :: t).dropWhile p = c :: t := by
  simp [List.dropWhile_cons, h]

theorem dropWhile_dropWhile (p : α → Bool) (l : List α) :
    (l.dropWhile p).dropWhile p = l.dropWhile p := by
  cases h : l.dropWhile p with
  | nil => rfl
  | cons c t => exact dropWhile_eq_self_of_cons (head_false_of_dropWhile_eq h)

theorem head_false_of_dropWhile_self {p : α → Bool} {c : α} {t : List α}
    (h : (c :: t).dropWhile p = c :: t) : p c = false := by
  by_cases hc : p c
  · rw [List.dropWhile_cons, if_pos (by simpa using hc)] at h
    have hle := dropWhile_length_le p t
    rw [h, List.length_cons] at hle
    exact absurd hle (Nat.not_succ_le_self _)
  · simpa using hc

theorem dropWhile_append_nil {p : α → Bool} {l₁ : List α}
    (h : l₁.dropWhile p = []) (l₂ : List α) :
    (l₁ ++ l₂).dropWhile p = l₂.dropWhile p := by
  induction l₁ with
  | nil => simp
  | cons a t ih =>
    by_cases ha : p a
    · rw [List.dropWhile_cons, if_pos (by simpa using ha)] at h
      simpa [List.dropWhile_cons, ha] using ih h
    · rw [List.dropWhile_cons, if_neg (by simpa using ha)] at h
      simp at h

theorem dropWhile_append_cons {p : α → Bool} {l₁ : List α} {c : α} {t : List α}
    (h : l₁.dropWhile p = c :: t) (l₂ : List α) :
    (l₁ ++ l₂).dropWhile p = c :: (t ++ l₂) := by
  induction l₁ with
  | nil => simp at h
  | cons a s ih =>
    by_cases ha : p a
    · rw [List.dropWhile_cons, if_pos (by simpa using ha)] at h
      simpa [List.dropWhile_cons, ha] using ih h
    · rw [List.dropWhile_cons, if_neg (by simpa using ha)] at h
      cases h
      simp [List.dropWhile_cons, ha]

theorem dropWhile_pstrip (l : List Char) :
    (pstrip l).dropWhile isPySpace = pstrip l := by
  unfold pstrip
  cases hA : l.dropWhile isPySpace with
  | nil => simp
  | cons c t =>
    have hc : isPySpace c = false := head_false_of_dropWhile_eq hA
    rw [List.reverse_cons]
    cases he : t.reverse.dropWhile isPySpace with
    | nil =>
      rw [dropWhile_append_nil he]
      simp [List.dropWhile_cons, hc]
    | cons d u =>
      have hdf : isPySpace d = false := head_false_of_dropWhile_eq he
      rw [dropWhile_append_cons he]
      rw [List.reverse_cons, List.reverse_append, List.reverse_cons]
      simp only [List.reverse_nil, List.nil_append, List.cons_append]
      exact dropWhile_eq_self_of_cons hc

theorem reverse_pstrip_fixed (l : List Char) :
    (pstrip l).reverse.dropWhile isPySpace = (pstrip l).reverse := by
  unfold pstrip
  rw [List.reverse_reverse]
  exact dropWhile_dropWhile _ _

theorem pstrip_idem (l : List Char) : pstrip (pstrip l) = pstrip l := by
  conv_lhs => rw [pstrip, dropWhile_pstrip, reverse_pstrip_fixed, List.reverse_reverse]

theorem pstrip_of_fixed {l : List Char} (h1 : l.dropWhile isPySpace = l)
    (h2 : l.reverse.dropWhile isPySpace = l.reverse) : pstrip l = l := by
  rw [pstrip, h1, h2, List.reverse_reverse]

theorem pstrip_nil_of_all {l : List Char} (h : ∀ c ∈ l, isPySpace c = true) :
    pstrip l = [] := by
  rw [pstrip, dropWhile_all h]
  rfl

/-! C1: the Numeral Parser follows exactly the algorithm the specification
describes. -/

/-- C1: for every input string, the numeral conversion of
`parse_chapter_title` agrees with the algorithm as the specification
states it (exact table lookup; twenty-glyph and ten-glyph special cases
with 0 fallback for an unknown remainder; otherwise the per-glyph sum with
unknown glyphs contributing 0). -/
theorem numeral_parser_follows_spec : ∀ s : List Char, parseChineseNum s = specNumeral s :=
  fun _ => rfl

/-! C3: the string 一百八 takes the fallback branch and sums to 109. -/

/-- C3: on the string 一百八 the Numeral Parser misses the table, does not
start with the twenty glyph pair nor the ten glyph, and so takes the
glyph-summing fallback branch, returning 1 + 100 + 8 = 109 rather than the
positionally correct 108. -/
theorem numeral_one_hundred_eight :
    chineseNums ['一', '百', '八'] = none ∧
    ['一', '百', '八'].take 2 ≠ ['二', '十'] ∧
    ['一', '百', '八'].take 1 ≠ ['十'] ∧
    parseChineseNum ['一', '百', '八'] =
      ((['一', '百', '八'].map (fun c => (chineseNums [c]).getD 0)).sum) ∧
    parseChineseNum ['一', '百', '八'] = 109 ∧
    (109 : Nat) = 1 + 100 + 8 ∧
    parseChineseNum ['一', '百', '八'] ≠ 108 := by
  refine ⟨rfl, by decide, by decide, rfl, rfl, rfl, by decide⟩

/-! Segmentation lemmas: the paragraph loop equals the maximal-run
description. -/

theorem segLoop_eq_segLoopS (ls : List (List Char)) : ∀ buf,
    segLoop buf ls = segLoopS buf (ls.map pstrip) := by
  induction ls with
  | nil => intro buf; rfl
  | cons l t ih =>
    intro buf
    simp only [List.map_cons, segLoop, segLoopS]
    split_ifs <;> simp [ih]

theorem segLoopS_acc (ls : List (List Char)) : ∀ buf, buf ≠ [] →
    segLoopS buf ls =
      ⟨[(buf ++ ls.takeWhile (fun x => !x.isEmpty)).flatten]⟩ ::
        segLoopS [] (ls.dropWhile (fun x => !x.isEmpty)) := by
  induction ls with
  | nil =>
    intro buf hb
    simp [segLoopS, hb]
  | cons s t ih =>
    intro buf hb
    by_cases hs : s = []
    · subst hs
      simp only [segLoopS, if_pos rfl, if_neg hb, List.takeWhile_cons,
        List.dropWhile_cons, List.isEmpty_nil, Bool.not_true, if_neg]
      simp [segLoopS]
    · have hsb : (!s.isEmpty) = true := by
        simpa using hs
      simp only [segLoopS, if_neg hs]
      rw [ih (buf ++ [s]) (by simp)]
      simp [List.takeWhile_cons, List.dropWhile_cons, hsb, List.append_assoc]

theorem segLoopS_runs : ∀ ls : List (List Char),
    segLoopS [] ls = (nonBlankRuns ls).map (fun run => (⟨[run.flatten]⟩ : Paragraph))
  | [] => by rw [nonBlankRuns]; rfl
  | l :: t => by
    by_cases h : l = []
    · subst h
      rw [nonBlankRuns]
      simp only [if_pos rfl]
      exact segLoopS_runs t
    · have e1 : segLoopS [] (l :: t) = segLoopS [l] t := by
        simp only [segLoopS, List.nil_append]
        rw [if_neg h]
      rw [e1, segLoopS_acc t [l] (by simp), nonBlankRuns, if_neg h,
        segLoopS_runs (t.dropWhile (fun x => !x.isEmpty))]
      simp only [List.map_cons, List.cons_append, List.nil_append]
termination_by ls => ls.length
decreasing_by
  · simp only [List.length_cons]; exact Nat.lt_succ_of_le (Nat.le_refl _)
  · simp only [List.length_cons]
    exact Nat.lt_succ_of_le ((List.dropWhile_suffix _).sublist.length_le)

theorem nonBlankRuns_head_nonempty : ∀ (ls : List (List Char)) run,
    run ∈ nonBlankRuns ls → ∃ h t, run = h :: t ∧ h ≠ []
  | [] => by intro run h; simp [nonBlankRuns] at h
  | l :: ls => by
    intro run hr
    by_cases h : l = []
    · rw [nonBlankRuns, if_pos h] at hr
      exact nonBlankRuns_head_nonempty ls run hr
    · rw [nonBlankRuns, if_neg h] at hr
      rcases List.mem_cons.mp hr with h1 | h2
      · exact ⟨l, ls.takeWhile (fun x => !x.isEmpty), h1, h⟩
      · exact nonBlankRuns_head_nonempty (ls.dropWhile (fun x => !x.isEmpty)) run h2
termination_by ls => ls.length
decreasing_by
  · simp only [List.length_cons]; exact Nat.lt_succ_of_le (Nat.le_refl _)
  · simp only [List.length_cons]
    exact Nat.lt_succ_of_le ((List.dropWhile_suffix _).sublist.length_le)

/-- C2: the lines after the title are grouped into maximal runs of
consecutive non-blank lines, each run emitted as one Paragraph holding the
separator-free concatenation of its stripped lines (`specSegment` is that
description word for word); the concrete line list of the claim produces
exactly the two paragraphs AB and C; and no Paragraph is ever empty. -/
theorem paragraph_segmentation :
    (∀ ls, segLoop [] ls = specSegment ls) ∧
    segLoop [] [[], ['A'], ['B'], [], [], ['C'], []] =
      [⟨[['A', 'B']]⟩, ⟨[['C']]⟩] ∧
    (∀ ls p, p ∈ segLoop [] ls → ∃ s, p.content = [s] ∧ s ≠ []) := by
  have hmain : ∀ ls, segLoop [] ls = specSegment ls := by
    intro ls
    rw [segLoop_eq_segLoopS, segLoopS_runs]
    rfl
  refine ⟨hmain, by decide, ?_⟩
  intro ls p hp
  rw [hmain] at hp
  unfold specSegment at hp
  rcases List.mem_map.mp hp with ⟨run, hrun, hpeq⟩
  rcases nonBlankRuns_head_nonempty _ run hrun with ⟨h, t, hshape, hne⟩
  refine ⟨run.flatten, by rw [← hpeq], ?_⟩
  subst hshape
  simp only [List.flatten_cons]
  intro hcontra
  exact hne (List.append_eq_nil.mp hcontra).1

/-- Witness for C2: the nonemptiness invariant applied to the one-line
input A. -/
theorem paragraph_segmentation_witness :
    ∃ s, (Paragraph.mk [['A']]).content = [s] ∧ s ≠ [] :=
  paragraph_segmentation.2.2 [['A']] ⟨[['A']]⟩ (by decide)

/-- C10: a whitespace-only line behaves exactly like an empty line in
paragraph segmentation: replacing one with the other anywhere after the
title leaves the parsed chapter unchanged (so such lines contribute no
characters to any Paragraph). -/
theorem whitespace_line_is_blank :
    ∀ (stem title : List Char) (pre post : List (List Char)) (w : List Char),
      (∀ c ∈ w, isPySpace c = true) →
      parseLines stem (title :: (pre ++ w :: post)) =
        parseLines stem (title :: (pre ++ ([] : List Char) :: post)) := by
  intro stem title pre post w hw
  unfold parseLines
  simp only [List.headD_cons, List.tail_cons]
  have hseg : segLoop [] (pre ++ w :: post) = segLoop [] (pre ++ ([] : List Char) :: post) := by
    rw [segLoop_eq_segLoopS, segLoop_eq_segLoopS]
    have hmap : (pre ++ w :: post).map pstrip = (pre ++ ([] : List Char) :: post).map pstrip := by
      rw [List.map_append, List.map_append, List.map_cons, List.map_cons,
        pstrip_nil_of_all hw]
      rfl
    rw [hmap]
  rw [hseg]

/-- Witness for C10: replacing the single-space line with the empty line
in a concrete three-line input leaves the parse unchanged. -/
theorem whitespace_line_is_blank_witness :
    parseLines ['1'] [['t'], [' '], ['A']] = parseLines ['1'] [['t'], [], ['A']] :=
  whitespace_line_is_blank ['1'] ['t'] [] [['A']] [' '] (by decide)

/-! Title pattern lemmas. -/

theorem pstrip_marker_line (g X : List Char)
    (h2 : X.reverse.dropWhile isPySpace = X.reverse) (hne : X ≠ []) :
    pstrip ('第' :: g ++ '回' :: ' ' :: X) = '第' :: g ++ '回' :: ' ' :: X := by
  cases hXr : X.reverse with
  | nil => exact absurd (by simpa using congrArg List.reverse hXr) hne
  | cons c cs =>
    have hc : isPySpace c = false := by
      rw [hXr] at h2
      exact head_false_of_dropWhile_self h2
    apply pstrip_of_fixed
    · exact dropWhile_eq_self_of_cons (by decide)
    · have hrev : ('第' :: g ++ '回' :: ' ' :: X).reverse =
          c :: (cs ++ [' ', '回'] ++ g.reverse ++ ['第']) := by
        simp [hXr]
      rw [hrev]
      exact dropWhile_eq_self_of_cons hc

theorem title_of_glyphs (g X : List Char) (hg : g ≠ [])
    (hgl : ∀ c ∈ g, isGlyph c = true)
    (h1 : X.dropWhile isPySpace = X)
    (h2 : X.reverse.dropWhile isPySpace = X.reverse)
    (hne : X ≠ []) (hnl : '\n' ∉ X) :
    pstrip ('第' :: g ++ '回' :: ' ' :: X) = '第' :: g ++ '回' :: ' ' :: X ∧
    parse_chapter_title ('第' :: g ++ '回' :: ' ' :: X) = (parseChineseNum g, X) := by
  have hstrip := pstrip_marker_line g X h2 hne
  refine ⟨hstrip, ?_⟩
  unfold parse_chapter_title
  rw [hstrip]
  have hnum : (g ++ '回' :: ' ' :: X).takeWhile isGlyph = g := by
    rw [takeWhile_append_all hgl, List.takeWhile_cons, if_neg (by decide)]
    simp
  have hrest : (g ++ '回' :: ' ' :: X).dropWhile isGlyph = '回' :: ' ' :: X := by
    rw [dropWhile_append_all hgl, List.dropWhile_cons, if_neg (by decide)]
  have hu : (' ' :: X).dropWhile isPySpace = X := by
    rw [List.dropWhile_cons, if_pos (by decide)]
    exact h1
  have hX2 : X.takeWhile (fun c => c != '\n') = X :=
    takeWhile_all (fun c hc => by
      simp only [bne_iff_ne, ne_eq, decide_eq_true_eq]
      exact fun he => hnl (he ▸ hc))
  have hmatch : titleMatch ('第' :: g ++ '回' :: ' ' :: X) = some (g, X) := by
    have e1 : ('第' :: g ++ '回' :: ' ' :: X).take 1 = ['第'] := rfl
    have e2 : ('第' :: g ++ '回' :: ' ' :: X).drop 1 = g ++ '回' :: ' ' :: X := rfl
    have e3 : ('回' :: ' ' :: X).take 1 = ['回'] := rfl
    have e4 : ('回' :: ' ' :: X).drop 1 = ' ' :: X := rfl
    unfold titleMatch
    rw [e1, if_pos rfl, e2, hnum, hrest, if_neg hg, e3, if_pos rfl, e4, hu,
      if_neg hne, hX2]
  simp only [hstrip, hmatch]
  rw [pstrip_of_fixed h1 h2]

/-- C6 counterexample: with the empty title suffix, the title line 第一回
followed by a space strips to bare 第一回, the pattern does not match
(group 2 needs at least one character), and the parse yields candidate id
0 with titleText 第一回 — not id 1 with titleText the suffix. -/
theorem title_suffix_counterexample :
    parse_chapter_title ("第一回 ".data ++ "".data) = (0, "第一回".data) ∧
    ((0 : Nat), "第一回".data) ≠ ((1 : Nat), "".data) := by
  constructor
  · decide
  · decide

/-- C6 amended: for every title suffix X that is nonempty, contains no
newline and neither starts nor ends with whitespace, a title line 第一回
space X yields candidate id 1 and titleText X, a title line 第二十一回
space X yields 21, and a title line 第十回 space X yields 10; through the
Chapter Parser the first form gives a record with id 1 and titleText X. -/
theorem title_patterns_amended (X : List Char)
    (h1 : X.dropWhile isPySpace = X)
    (h2 : X.reverse.dropWhile isPySpace = X.reverse)
    (hne : X ≠ []) (hnl : '\n' ∉ X) :
    parse_chapter_title ('第' :: '一' :: '回' :: ' ' :: X) = (1, X) ∧
    parse_chapter_title ('第' :: '二' :: '十' :: '一' :: '回' :: ' ' :: X) = (21, X) ∧
    parse_chapter_title ('第' :: '十' :: '回' :: ' ' :: X) = (10, X) ∧
    ∀ stem rest, parseLines stem (('第' :: '一' :: '回' :: ' ' :: X) :: rest) =
      some ⟨1, '第' :: '一' :: '回' :: ' ' :: X, X, segLoop [] rest⟩ := by
  have t1 := title_of_glyphs ['一'] X (by decide) (by decide) h1 h2 hne hnl
  have t2 := title_of_glyphs ['二', '十', '一'] X (by decide) (by decide) h1 h2 hne hnl
  have t3 := title_of_glyphs ['十'] X (by decide) (by decide) h1 h2 hne hnl
  have t1s : pstrip ('第' :: '一' :: '回' :: ' ' :: X) =
      '第' :: '一' :: '回' :: ' ' :: X := t1.1
  have t1p : parse_chapter_title ('第' :: '一' :: '回' :: ' ' :: X) = (1, X) := t1.2
  refine ⟨t1p, t2.2, t3.2, ?_⟩
  intro stem rest
  unfold parseLines
  simp only [List.headD_cons, List.tail_cons, t1s, t1p]
  norm_num

/-- Witness for the amended C6, at the one-character suffix 甲. -/
theorem title_patterns_witness :
    parse_chapter_title ['第', '一', '回', ' ', '甲'] = (1, ['甲']) ∧
    parse_chapter_title ['第', '十', '回', ' ', '甲'] = (10, ['甲']) := by
  have h := title_patterns_amended ['甲'] (by decide) (by decide) (by decide) (by decide)
  exact ⟨h.1, h.2.2.1⟩

/-- C9: a trimmed first line consisting of 第, one or more numeral glyphs
and 回 with nothing after the marker does not match the title pattern: the
candidate id is 0, titleText is the whole line marker included, and the id
of the parsed record is therefore taken from the filename fallback. -/
theorem bare_marker_no_suffix (g : List Char) (hg : g ≠ [])
    (hgl : ∀ c ∈ g, isGlyph c = true) :
    parse_chapter_title ('第' :: g ++ ['回']) = (0, '第' :: g ++ ['回']) ∧
    ∀ stem rest,
      (parseLines stem (('第' :: g ++ ['回']) :: rest)).map (fun r => r.id) =
        pyInt stem := by
  have hstrip : pstrip ('第' :: g ++ ['回']) = '第' :: g ++ ['回'] := by
    apply pstrip_of_fixed
    · exact dropWhile_eq_self_of_cons (by decide)
    · have hrev : ('第' :: g ++ ['回']).reverse = '回' :: (g.reverse ++ ['第']) := by
        simp
      rw [hrev]
      exact dropWhile_eq_self_of_cons (by decide)
  have hnum : (g ++ ['回']).takeWhile isGlyph = g := by
    rw [takeWhile_append_all hgl, List.takeWhile_cons, if_neg (by decide)]
    simp
  have hrest : (g ++ ['回']).dropWhile isGlyph = ['回'] := by
    rw [dropWhile_append_all hgl, List.dropWhile_cons, if_neg (by decide)]
  have hmatch : titleMatch ('第' :: g ++ ['回']) = none := by
    have e1 : ('第' :: g ++ ['回']).take 1 = ['第'] := rfl
    have e2 : ('第' :: g ++ ['回']).drop 1 = g ++ ['回'] := rfl
    unfold titleMatch
    rw [e1, if_pos rfl, e2, hnum, hrest, if_neg hg]
    norm_num
  have hparse : parse_chapter_title ('第' :: g ++ ['回']) = (0, '第' :: g ++ ['回']) := by
    unfold parse_chapter_title
    simp only [hstrip, hmatch]
  refine ⟨hparse, ?_⟩
  intro stem rest
  unfold parseLines
  simp only [List.headD_cons, List.tail_cons, hstrip, hparse]
  norm_num
  cases pyInt stem <;> simp

/-- Witness for C9 at the single glyph 一 and filename 3. -/
theorem bare_marker_witness :
    parse_chapter_title ['第', '一', '回'] = (0, ['第', '一', '回']) ∧
    (parseLines ['3'] [['第', '一', '回']]).map (fun r => r.id) = pyInt ['3'] := by
  have h := bare_marker_no_suffix ['一'] (by decide) (by decide)
  exact ⟨h.1, h.2 ['3'] []⟩

/-- C7: a file with base name 5 whose first line does not match the title
pattern parses to a record with id 5 and with both title and titleText
equal to the trimmed first line. -/
theorem filename_fallback (first : List Char) (rest : List (List Char))
    (hnm : titleMatch (pstrip first) = none) :
    parseLines ['5'] (first :: rest) =
      some ⟨5, pstrip first, pstrip first, segLoop [] rest⟩ := by
  unfold parseLines parse_chapter_title
  simp only [List.headD_cons, List.tail_cons, pstrip_idem, hnm]
  norm_num
  rfl

/-- Witness for C7: the first line Some preface with base name 5. -/
theorem filename_fallback_witness :
    parseLines ['5'] ["Some preface".data] =
      some ⟨5, "Some preface".data, "Some preface".data, []⟩ := by
  have h := filename_fallback "Some preface".data [] (by decide)
  exact h

/-! Driver lemmas. -/

/-- C5: a per-file parse fails exactly when the candidate id decoded from
the title line is 0 and the base name is not accepted by `int()`; in the
driver loop such a file contributes one logged error entry and no write,
and every other file of the loop is processed unchanged. -/
theorem per_file_error_policy :
    (∀ stem content, parse_txt_file stem content = none ↔
      (candOf content = 0 ∧ pyInt stem = none)) ∧
    (∀ pre (bad : TxtFile) post, parse_txt_file bad.1 bad.2 = none →
      loopEntries (pre ++ bad :: post) =
        loopEntries pre ++ Except.error bad.1 :: loopEntries post ∧
      loopWrites (pre ++ bad :: post) = loopWrites pre ++ loopWrites post) := by
  constructor
  · intro stem content
    unfold parse_txt_file parseLines candOf firstLineOf
    by_cases h : (parse_chapter_title (pstrip ((splitNl (pstrip content)).headD []))).1 = 0
    · rw [if_pos h, Option.map_eq_none']
      exact ⟨fun hp => ⟨h, hp⟩, fun hp => hp.2⟩
    · rw [if_neg h]
      exact ⟨fun hp => absurd (Option.map_eq_none'.mp hp) (Option.some_ne_none _),
        fun hp => absurd hp.1 h⟩
  · intro pre bad post hbad
    have hone : processOne bad = Except.error bad.1 := by
      unfold processOne
      rw [hbad]
    constructor
    · unfold loopEntries
      rw [List.map_append, List.map_cons, hone]
    · unfold loopWrites loopEntries
      rw [List.map_append, List.map_cons, hone]
      simp [List.filterMap_append, List.filterMap_cons, Except.toOption]

/-- Witness for C5: the file with base name ab and content hello fails
(unmatched title and non-numeric name), is logged, and leaves the rest of
the loop unchanged. -/
theorem per_file_error_witness :
    loopEntries ([] ++ (['a', 'b'], ['h', 'i']) :: []) =
      loopEntries [] ++ Except.error ['a', 'b'] :: loopEntries [] ∧
    loopWrites ([] ++ (['a', 'b'], ['h', 'i']) :: []) = loopWrites [] ++ loopWrites [] :=
  per_file_error_policy.2 [] (['a', 'b'], ['h', 'i']) [] (by decide)

theorem insertSorted_mem {le : α → α → Bool} {x a : α} :
    ∀ {l : List α}, x ∈ insertSorted le a l → x = a ∨ x ∈ l := by
  intro l
  induction l with
  | nil => intro h; simpa [insertSorted] using h
  | cons b bs ih =>
    intro h
    unfold insertSorted at h
    by_cases hle : le b a
    · rw [if_pos hle] at h
      rcases List.mem_cons.mp h with h1 | h2
      · exact Or.inr (h1 ▸ List.mem_cons_self b bs)
      · rcases ih h2 with h3 | h4
        · exact Or.inl h3
        · exact Or.inr (List.mem_cons_of_mem b h4)
    · rw [if_neg hle] at h
      rcases List.mem_cons.mp h with h1 | h2
      · exact Or.inl h1
      · exact Or.inr h2

theorem foldl_insertSorted_mem {le : α → α → Bool} {x : α} :
    ∀ (l acc : List α), x ∈ l.foldl (fun acc y => insertSorted le y acc) acc →
      x ∈ acc ∨ x ∈ l := by
  intro l
  induction l with
  | nil => intro acc h; exact Or.inl h
  | cons y ys ih =>
    intro acc h
    rcases ih (insertSorted le y acc) h with h1 | h2
    · rcases insertSorted_mem h1 with h3 | h4
      · exact Or.inr (h3 ▸ List.mem_cons_self y ys)
      · exact Or.inl h4
    · exact Or.inr (List.mem_cons_of_mem y h2)

theorem sortFiles_mem {f : TxtFile} {files : List TxtFile}
    (h : f ∈ sortFiles files) : f ∈ files := by
  rcases foldl_insertSorted_mem files [] h with h1 | h2
  · simp at h1
  · exact h2

theorem parseLines_id_spec (stem : List Char) (lines : List (List Char)) (r : Chapter)
    (h : parseLines stem lines = some r) :
    (((parse_chapter_title (pstrip (lines.headD []))).1 ≠ 0 ∧
      r.id = ((parse_chapter_title (pstrip (lines.headD []))).1 : Int) ∧ 0 ≤ r.id) ∨
     ((parse_chapter_title (pstrip (lines.headD []))).1 = 0 ∧
      pyInt stem = some r.id)) := by
  unfold parseLines at h
  by_cases hc : (parse_chapter_title (pstrip (lines.headD []))).1 = 0
  · right
    refine ⟨hc, ?_⟩
    rw [if_pos hc] at h
    cases hpy : pyInt stem with
    | none => rw [hpy] at h; simp at h
    | some i =>
      rw [hpy] at h
      simp only [Option.map_some', Option.some.injEq] at h
      rw [← h]
  · left
    refine ⟨hc, ?_, ?_⟩
    · rw [if_neg hc] at h
      simp only [Option.map_some', Option.some.injEq] at h
      rw [← h]
    · rw [if_neg hc] at h
      simp only [Option.map_some', Option.some.injEq] at h
      rw [← h]
      exact Int.natCast_nonneg _

/-- C4 counterexample: on the corpus of files -5 (content x), 1 and 01
(both with content p and no title marker), one run produces records with
ids -5, 1, 1 — an id below 0 and a duplicated id, refuting both the
nonnegativity and the corpus-wide uniqueness of ids. -/
theorem record_ids_counterexample :
    ((convertRecords [(['-', '5'], ['x']), (['1'], ['p']), (['0', '1'], ['p'])]).map
      (fun r => r.id)) = [-5, 1, 1] ∧
    ¬ ((∀ r ∈ convertRecords [(['-', '5'], ['x']), (['1'], ['p']), (['0', '1'], ['p'])],
          0 ≤ r.id) ∧
       (convertRecords [(['-', '5'], ['x']), (['1'], ['p']), (['0', '1'], ['p'])]).Pairwise
         (fun a b => a.id ≠ b.id)) := by
  constructor
  · decide
  · decide

/-- C4 amended: every record one run produces comes from one input file of
the corpus; its id is the numeral decoded from the title when that is
nonzero (and is then nonnegative), and otherwise is the value `int()`
gives for the file base name, which may be negative; ids are not
guaranteed pairwise distinct. -/
theorem record_ids_amended :
    ∀ files r, r ∈ convertRecords files →
      ∃ f, f ∈ files ∧ parse_txt_file f.1 f.2 = some r ∧
        ((candOf f.2 ≠ 0 ∧ r.id = (candOf f.2 : Int) ∧ 0 ≤ r.id) ∨
         (candOf f.2 = 0 ∧ pyInt f.1 = some r.id)) := by
  intro files r hr
  unfold convertRecords at hr
  rcases List.mem_filterMap.mp hr with ⟨f, hf, hparse⟩
  refine ⟨f, sortFiles_mem hf, hparse, ?_⟩
  have := parseLines_id_spec f.1 (splitNl (pstrip f.2)) r hparse
  unfold candOf firstLineOf
  exact this

/-- Witness for the amended C4 at the one-file corpus 1 with content p. -/
theorem record_ids_amended_witness :
    ∃ f, f ∈ [((['1'] : List Char), (['p'] : List Char))] ∧
      parse_txt_file f.1 f.2 = some (⟨1, ['p'], ['p'], []⟩ : Chapter) ∧
      ((candOf f.2 ≠ 0 ∧ (⟨1, ['p'], ['p'], []⟩ : Chapter).id = (candOf f.2 : Int) ∧
          0 ≤ (⟨1, ['p'], ['p'], []⟩ : Chapter).id) ∨
       (candOf f.2 = 0 ∧ pyInt f.1 = some (⟨1, ['p'], ['p'], []⟩ : Chapter).id)) :=
  record_ids_amended [(['1'], ['p'])] ⟨1, ['p'], ['p'], []⟩ (by decide)

theorem writeAll_not_written :
    ∀ (ws : List (List Char × List Char)) st n, n ∉ ws.map Prod.fst →
      writeAll ws st n = st n := by
  intro ws
  induction ws with
  | nil => intro st n _; rfl
  | cons w ws ih =>
    intro st n hn
    have hn1 : n ≠ w.1 := fun he => hn (by simp [he])
    have hn2 : n ∉ ws.map Prod.fst := fun he => hn (by simp [he])
    have step : writeAll (w :: ws) st =
        writeAll ws (fun m => if m = w.1 then some w.2 else st m) := rfl
    rw [step, ih _ n hn2]
    simp [hn1]

theorem writeAll_congr_outside :
    ∀ (ws : List (List Char × List Char)) st st',
      (∀ n, n ∉ ws.map Prod.fst → st n = st' n) → writeAll ws st = writeAll ws st' := by
  intro ws
  induction ws with
  | nil =>
    intro st st' h
    funext n
    exact h n (by simp)
  | cons w ws ih =>
    intro st st' h
    have step : ∀ s, writeAll (w :: ws) s =
        writeAll ws (fun m => if m = w.1 then some w.2 else s m) := fun _ => rfl
    rw [step, step]
    apply ih
    intro n hn
    by_cases he : n = w.1
    · simp [he]
    · simp only [if_neg he]
      exact h n (by simp [he, hn])

/-- C8: the conversion is deterministic and stateless: the writes of a run
depend only on the input files, and applying the same run a second time to
the output directory state left by the first run changes nothing — every
output file keeps byte-identical content. -/
theorem conversion_idempotent :
    ∀ files st, writeAll (convWrites files) (writeAll (convWrites files) st) =
      writeAll (convWrites files) st := by
  intro files st
  apply writeAll_congr_outside
  intro n hn
  exact writeAll_not_written _ _ _ hn

end RedConv
